import Mathlib

/-!
Shallow embedding of the shared-worker-utils PortManager
(packages/shared-worker-utils/src/port-manager.ts, second revision in that
file, with the ClientState and PortManagerOptions shapes of the matching
revision of types.ts) and proofs about it.

Ports are identified by natural numbers.  Time is a natural number of
milliseconds.  The Date.now() value at which a callback runs is passed in
explicitly as `now`.  Callbacks and postMessage calls are recorded as a list
of effects in chronological order.  AbortController instances are modelled by
identifiers issued in order of creation; `aborted` is the set of identifiers
whose scope has been fired.  Parts of the current PortManager revision that
are present only through its tests and type declarations are modelled from
the spec and marked as such in their doc comments.
-/

namespace SWU

/-- Association-list lookup mirroring the first (and, for a JS Map, only)
occurrence of a key. -/
def mapGet {α : Type} : List (Nat × α) → Nat → Option α
  | [], _ => none
  | (k', v) :: rest, k => if k' = k then some v else mapGet rest k

/-- Association-list update mirroring JS Map.set: replace the value of an
existing key in place, otherwise append the new pair at the end, preserving
insertion order. -/
def mapSet {α : Type} : List (Nat × α) → Nat → α → List (Nat × α)
  | [], k, v => [(k, v)]
  | (k', v') :: rest, k, v =>
    if k' = k then (k, v) :: rest else (k', v') :: mapSet rest k v

/-- Association-list removal mirroring JS Map.delete. -/
def mapDelete {α : Type} : List (Nat × α) → Nat → List (Nat × α)
  | [], _ => []
  | (k', v) :: rest, k =>
    if k' = k then mapDelete rest k else (k', v) :: mapDelete rest k

/-- Client status as in types.ts: the string union of connected and stale. -/
inductive ClientStatus where
  | connected
  | stale
  deriving DecidableEq, Repr

/-- Whether a status is the connected one. -/
def ClientStatus.isConnected : ClientStatus → Bool
  | .connected => true
  | .stale => false

/-- Whether a status is the stale one. -/
def ClientStatus.isStale : ClientStatus → Bool
  | .connected => false
  | .stale => true

/-- ClientState as in the current revision of types.ts: visibility flag,
timestamp of the last inbound traffic, per-entry AbortController (modelled by
its identifier), status, and the optional timestamp at which the entry became
stale. -/
structure ClientState where
  visible : Bool
  lastSeen : Nat
  status : ClientStatus
  staleTimestamp : Option Nat
  controller : Nat
  deriving DecidableEq, Repr

/-- Configuration accepted by the PortManager constructor.  The callbacks are
modelled as recorded effects rather than fields.  Construction defaults are
pingInterval 10000, pingTimeout 5000, staleClientTimeout unset. -/
structure PortManagerOptions where
  pingInterval : Nat
  pingTimeout : Nat
  staleClientTimeout : Option Nat
  deriving DecidableEq, Repr

/-- Wire and application messages.  The reserved control types of constants.ts
are constructors; every other payload is an application message carrying an
opaque payload.  The visibility-change payload may omit its visible field. -/
inductive Msg where
  | ping
  | pong
  | visibilityChange (visible : Option Bool)
  | disconnect
  | clientCount (total active : Nat)
  | app (payload : Nat)
  deriving DecidableEq, Repr

/-- Observable effects of PortManager operations in chronological order:
postMessage on a port, the onActiveCountChange callback, the onMessage
callback for application messages, and the structured log event reporting the
auto-removal of a stale client with the elapsed stale duration. -/
inductive Eff where
  | post (port : Nat) (msg : Msg)
  | activeCountChange (active total : Nat)
  | appMessage (port : Nat) (msg : Msg)
  | autoRemovedStaleClient (timeStale : Nat)
  deriving DecidableEq, Repr

/-- State of one PortManager instance: the clients map (insertion ordered, as
a JS Map), the message-listener registrations made by addEventListener (port
paired with the controller id whose signal it was registered under), the set
of fired controller ids, and the next fresh controller id. -/
structure PortManagerState where
  clients : List (Nat × ClientState)
  listeners : List (Nat × Nat)
  aborted : List Nat
  nextCtrl : Nat
  deriving DecidableEq, Repr

/-- State of a freshly constructed PortManager. -/
def initState : PortManagerState := ⟨[], [], [], 0⟩

/-- Whether some message listener for port p is still attached, that is,
registered and with its controller not yet aborted.  A message event from p
can reach handleMessage only when this holds. -/
def listenerActive (s : PortManagerState) (p : Nat) : Bool :=
  s.listeners.any (fun l => l.1 == p && !(s.aborted.contains l.2))

/-- Count of visible connected clients, as getActiveCount. -/
def getActiveCount (s : PortManagerState) : Nat :=
  (s.clients.filter (fun pc => pc.2.visible && pc.2.status.isConnected)).length

/-- Count of connected clients, as getTotalCount (stale clients excluded). -/
def getTotalCount (s : PortManagerState) : Nat :=
  (s.clients.filter (fun pc => pc.2.status.isConnected)).length

/-- Modelled from the spec: getStaleCount of the current PortManager revision
(missing from src, present in its tests): the count of stale entries. -/
def getStaleCount (s : PortManagerState) : Nat :=
  (s.clients.filter (fun pc => pc.2.status.isStale)).length

/-- The broadcast method: post the message to every client whose status is
connected, in insertion order, skipping stale clients. -/
def broadcast (s : PortManagerState) (m : Msg) : List Eff :=
  s.clients.filterMap
    (fun pc => if pc.2.status.isConnected then some (Eff.post pc.1 m) else none)

/-- Effects of the private updateClientCount method: broadcast the
client-count control message to every connected client, then invoke the
onActiveCountChange callback. -/
def updateClientCount (s : PortManagerState) : List Eff :=
  broadcast s (Msg.clientCount (getTotalCount s) (getActiveCount s)) ++
    [Eff.activeCountChange (getActiveCount s) (getTotalCount s)]

/-- The private addClient method: create a fresh AbortController, store the
entry (visible, lastSeen now, connected, no stale timestamp) in the clients
map, and register a message listener under the signal of that controller. -/
def addClient (now p : Nat) (s : PortManagerState) : PortManagerState :=
  { clients := mapSet s.clients p
      ⟨true, now, ClientStatus.connected, none, s.nextCtrl⟩,
    listeners := s.listeners ++ [(p, s.nextCtrl)],
    aborted := s.aborted,
    nextCtrl := s.nextCtrl + 1 }

/-- The private removeClient method: if the port is registered, abort the
controller of its entry and delete the entry; otherwise do nothing. -/
def removeClient (p : Nat) (s : PortManagerState) : PortManagerState :=
  match mapGet s.clients p with
  | some c =>
    { clients := mapDelete s.clients p,
      listeners := s.listeners,
      aborted := c.controller :: s.aborted,
      nextCtrl := s.nextCtrl }
  | none => s

/-- The handleConnect method: addClient then updateClientCount (then
port.start, which has no modelled effect). -/
def handleConnect (now p : Nat) (s : PortManagerState) :
    PortManagerState × List Eff :=
  let s' := addClient now p s
  (s', updateClientCount s')

/-- The switch statement at the end of handleMessage: visibility-change
updates the visible flag (absent field defaults to visible) and recomputes
counts; disconnect removes the client and recomputes counts; pong records the
time of the last inbound traffic; everything else, a ping or a client-count
control message included, is passed through to the onMessage callback. -/
def routeMessage (now p : Nat) (data : Msg) (s : PortManagerState) :
    PortManagerState × List Eff :=
  match data with
  | .visibilityChange v =>
    match mapGet s.clients p with
    | some c =>
      let t := { s with clients := mapSet s.clients p ({ c with visible := v.getD true }) }
      (t, updateClientCount t)
    | none => (s, [])
  | .disconnect =>
    let t := removeClient p s
    (t, updateClientCount t)
  | .pong =>
    match mapGet s.clients p with
    | some c =>
      ({ s with clients := mapSet s.clients p ({ c with lastSeen := now }) }, [])
    | none => (s, [])
  | m => (s, [Eff.appMessage p m])

/-- The handleMessage method, run when a message event fires on a port whose
listener is attached: first re-add the client if it is absent from the map,
then restore a stale client to connected status, resetting lastSeen and
clearing the stale timestamp (the clearing is modelled from the spec and the
tests of the current revision) and recomputing counts, and only then process
the message through the switch. -/
def handleMessage (now p : Nat) (data : Msg) (s : PortManagerState) :
    PortManagerState × List Eff :=
  let re :=
    match mapGet s.clients p with
    | none => let t := addClient now p s; (t, updateClientCount t)
    | some _ => (s, [])
  let s1 := re.1
  let restored :=
    match mapGet s1.clients p with
    | some c =>
      if c.status = ClientStatus.stale then
        let c' : ClientState :=
          { c with status := ClientStatus.connected, lastSeen := now,
                   staleTimestamp := none }
        let t := { s1 with clients := mapSet s1.clients p c' }
        (t, updateClientCount t)
      else (s1, ([] : List Eff))
    | none => (s1, ([] : List Eff))
  let s2 := restored.1
  let routed := routeMessage now p data s2
  (routed.1, re.2 ++ restored.2 ++ routed.2)

/-- Threshold after which a silent client is considered stale. -/
def staleThreshold (cfg : PortManagerOptions) : Nat :=
  cfg.pingInterval + cfg.pingTimeout

/-- Outcome of one heartbeat sweep for one entry: a connected client silent
for longer than the stale threshold is marked stale with the stale timestamp
set to now; a connected client within the threshold is kept (and pinged); a
stale client older than the configured staleClientTimeout is evicted (the
auto-eviction is modelled from the spec, the current revision being missing
from src); otherwise the entry is kept unchanged. -/
def checkEntry (cfg : PortManagerOptions) (now : Nat) (c : ClientState) :
    Option ClientState :=
  if c.status.isConnected then
    if now - c.lastSeen > staleThreshold cfg then
      some { c with status := ClientStatus.stale, staleTimestamp := some now }
    else some c
  else
    match cfg.staleClientTimeout, c.staleTimestamp with
    | some timeout, some ts =>
      if now - ts > timeout then none else some c
    | _, _ => some c

/-- Effects of one heartbeat sweep for one entry: a ping to a connected
client within the threshold, the structured auto-removal log event for an
evicted stale client, nothing otherwise (stale clients are not pinged). -/
def checkEntryEffs (cfg : PortManagerOptions) (now p : Nat) (c : ClientState) :
    List Eff :=
  if c.status.isConnected then
    if now - c.lastSeen > staleThreshold cfg then []
    else [Eff.post p Msg.ping]
  else
    match cfg.staleClientTimeout, c.staleTimestamp with
    | some timeout, some ts =>
      if now - ts > timeout then [Eff.autoRemovedStaleClient (now - ts)] else []
    | _, _ => []

/-- Concatenated sweep effects over the entries in iteration order. -/
def sweepEffs (cfg : PortManagerOptions) (now : Nat) :
    List (Nat × ClientState) → List Eff
  | [] => []
  | pc :: rest => checkEntryEffs cfg now pc.1 pc.2 ++ sweepEffs cfg now rest

/-- The private checkClients method, run on every tick of the heartbeat
interval: sweep every entry with checkEntry, firing the cancellation scope of
every evicted entry, and recompute counts when at least one entry was marked
stale or removed. -/
def checkClients (cfg : PortManagerOptions) (now : Nat) (s : PortManagerState) :
    PortManagerState × List Eff :=
  let clients' := s.clients.filterMap
    (fun pc => (checkEntry cfg now pc.2).map (fun c => (pc.1, c)))
  let evicted := s.clients.filterMap
    (fun pc => if checkEntry cfg now pc.2 = none then some pc.2.controller else none)
  let changed := s.clients.countP
    (fun pc => decide (checkEntry cfg now pc.2 ≠ some pc.2))
  let s' := { s with clients := clients', aborted := evicted ++ s.aborted }
  let effs := sweepEffs cfg now s.clients
  if changed > 0 then (s', effs ++ updateClientCount s') else (s', effs)

/-- Modelled from the spec: removeStaleClients of the current PortManager
revision (missing from src, present in its tests): evict every stale entry
immediately, firing its cancellation scope, recompute counts if any entry was
removed, and return the number removed. -/
def removeStaleClients (s : PortManagerState) :
    (PortManagerState × List Eff) × Nat :=
  let stale := s.clients.filter (fun pc => pc.2.status.isStale)
  let s' := { s with
    clients := s.clients.filter (fun pc => pc.2.status.isConnected),
    aborted := stale.map (fun pc => pc.2.controller) ++ s.aborted }
  if stale.length > 0 then ((s', updateClientCount s'), stale.length)
  else ((s', []), stale.length)

/-- The destroy method: stop the heartbeat interval and removeClient every
registered port, firing every cancellation scope and clearing the map. -/
def destroy (s : PortManagerState) : PortManagerState × List Eff :=
  let s' : PortManagerState :=
    { s with clients := [],
             aborted := s.clients.map (fun pc => pc.2.controller) ++ s.aborted }
  (s', [])

/-- Events that drive a PortManager instance: a connection event for a port,
a message event from a port, a heartbeat tick, a manual removeStaleClients
call, and a destroy call. -/
inductive Action where
  | connect (now p : Nat)
  | message (now p : Nat) (data : Msg)
  | tick (now : Nat)
  | removeStale
  | destroy
  deriving DecidableEq, Repr

/-- State transition of one action. -/
def applyAction (cfg : PortManagerOptions) (s : PortManagerState) :
    Action → PortManagerState
  | .connect now p => (handleConnect now p s).1
  | .message now p data => (handleMessage now p data s).1
  | .tick now => (checkClients cfg now s).1
  | .removeStale => (removeStaleClients s).1.1
  | .destroy => (destroy s).1

/-- Enabledness of an action: a message event can fire only while some
attached listener for the port remains unaborted, since every listener is
registered under the signal of an AbortController and the runtime delivers no
event through an aborted registration. -/
def enabled (s : PortManagerState) : Action → Prop
  | .message _ p _ => listenerActive s p = true
  | _ => True

/-- Freshness of a port for a connection event: no listener was ever
registered on it.  The SharedWorker runtime delivers a brand-new MessagePort
with every connect event, so real connection events always satisfy this. -/
def freshPort (s : PortManagerState) (p : Nat) : Prop :=
  ∀ l ∈ s.listeners, l.1 ≠ p

/-- Enabledness when every connection event carries a fresh port, as the
SharedWorker runtime guarantees. -/
def enabledF (s : PortManagerState) : Action → Prop
  | .connect _ p => freshPort s p
  | .message _ p _ => listenerActive s p = true
  | _ => True

instance instDecidableEnabled (s : PortManagerState) (a : Action) :
    Decidable (enabled s a) :=
  match a with
  | .connect _ _ => isTrue trivial
  | .message _ p _ => (inferInstance : Decidable (listenerActive s p = true))
  | .tick _ => isTrue trivial
  | .removeStale => isTrue trivial
  | .destroy => isTrue trivial

instance instDecidableEnabledF (s : PortManagerState) (a : Action) :
    Decidable (enabledF s a) :=
  match a with
  | .connect _ p => (List.decidableBAll _ s.listeners :
      Decidable (∀ l ∈ s.listeners, l.1 ≠ p))
  | .message _ p _ => (inferInstance : Decidable (listenerActive s p = true))
  | .tick _ => isTrue trivial
  | .removeStale => isTrue trivial
  | .destroy => isTrue trivial

/-- States reachable from a fresh PortManager under arbitrary host usage,
including a handleConnect call that reuses an already connected port. -/
inductive Reachable (cfg : PortManagerOptions) : PortManagerState → Prop where
  | init : Reachable cfg initState
  | step {s : PortManagerState} (a : Action) :
      Reachable cfg s → enabled s a → Reachable cfg (applyAction cfg s a)

/-- States reachable from a fresh PortManager when every connection event
carries a fresh port, as the SharedWorker runtime guarantees. -/
inductive FReachable (cfg : PortManagerOptions) : PortManagerState → Prop where
  | init : FReachable cfg initState
  | step {s : PortManagerState} (a : Action) :
      FReachable cfg s → enabledF s a → FReachable cfg (applyAction cfg s a)

/-- Times at which the heartbeat interval has fired by time t: the positive
multiples of pingInterval up to t. -/
def sweepTimes (interval t : Nat) : List Nat :=
  (List.range (t / interval)).map (fun k => (k + 1) * interval)

/-- Run a sequence of heartbeat sweeps at the given times. -/
def runTicks (cfg : PortManagerOptions) (ticks : List Nat)
    (s : PortManagerState) : PortManagerState :=
  ticks.foldl (fun t n => (checkClients cfg n t).1) s

/-- PortManager.broadcast in the presence of postMessage failures: the source
loop wraps no try or catch around postMessage, so the first throwing delivery
to a connected client aborts the loop and the exception propagates to the
caller.  The failing argument says which ports throw; the result is the list
of deliveries made plus the port whose delivery threw, if any. -/
def broadcastTry (failing : Nat → Bool) (m : Msg) :
    List (Nat × ClientState) → List Eff × Option Nat
  | [] => ([], none)
  | pc :: rest =>
    if pc.2.status.isConnected then
      if failing pc.1 then ([], some pc.1)
      else
        let r := broadcastTry failing m rest
        (Eff.post pc.1 m :: r.1, r.2)
    else broadcastTry failing m rest


theorem mapGet_set_self {α : Type} (m : List (Nat × α)) (k : Nat) (v : α) :
    mapGet (mapSet m k v) k = some v := by
  induction m with
  | nil => simp [mapSet, mapGet]
  | cons kv rest ih =>
    obtain ⟨k₀, v₀⟩ := kv
    by_cases h : k₀ = k
    · simp [mapSet, h, mapGet]
    · simp [mapSet, h, mapGet, ih]

theorem mapGet_set_ne {α : Type} (m : List (Nat × α)) {k k' : Nat} (v : α)
    (h : k' ≠ k) : mapGet (mapSet m k v) k' = mapGet m k' := by
  have h' : ¬ k = k' := fun e => h e.symm
  induction m with
  | nil => simp [mapSet, mapGet, h']
  | cons kv rest ih =>
    obtain ⟨k₀, v₀⟩ := kv
    by_cases hk : k₀ = k
    · subst hk
      simp [mapSet, mapGet, h']
    · simp only [mapSet, if_neg hk, mapGet]
      by_cases hk' : k₀ = k'
      · simp [hk']
      · simp [hk', ih]

theorem mapGet_delete_self {α : Type} (m : List (Nat × α)) (k : Nat) :
    mapGet (mapDelete m k) k = none := by
  induction m with
  | nil => simp [mapDelete, mapGet]
  | cons kv rest ih =>
    obtain ⟨k₀, v₀⟩ := kv
    by_cases hk : k₀ = k
    · simpa [mapDelete, hk] using ih
    · simpa [mapDelete, hk, mapGet] using ih

theorem mapGet_delete_ne {α : Type} (m : List (Nat × α)) {k k' : Nat}
    (h : k' ≠ k) : mapGet (mapDelete m k) k' = mapGet m k' := by
  induction m with
  | nil => simp [mapDelete, mapGet]
  | cons kv rest ih =>
    obtain ⟨k₀, v₀⟩ := kv
    by_cases hk : k₀ = k
    · subst hk
      have hne : ¬ k₀ = k' := fun e => h e.symm
      simpa [mapDelete, mapGet, hne] using ih
    · by_cases hk' : k₀ = k'
      · simp [mapDelete, hk, mapGet, hk', h]
      · simpa [mapDelete, hk, mapGet, hk'] using ih

theorem mapGet_eq_some_mem {α : Type} {m : List (Nat × α)} {k : Nat} {v : α}
    (h : mapGet m k = some v) : (k, v) ∈ m := by
  induction m with
  | nil => simp [mapGet] at h
  | cons kv rest ih =>
    obtain ⟨k₀, v₀⟩ := kv
    by_cases hk : k₀ = k
    · subst hk
      simp [mapGet] at h
      simp [h]
    · simp [mapGet, hk] at h
      exact List.mem_cons_of_mem _ (ih h)

theorem mapGet_eq_none_of_not_mem_keys {α : Type} {m : List (Nat × α)}
    {k : Nat} (h : k ∉ m.map Prod.fst) : mapGet m k = none := by
  induction m with
  | nil => simp [mapGet]
  | cons kv rest ih =>
    obtain ⟨k₀, v₀⟩ := kv
    have h₁ : ¬ k₀ = k := by
      intro e
      exact h (by simp [e])
    have h₂ : k ∉ rest.map Prod.fst := by
      intro e
      exact h (by simp [e])
    simp [mapGet, h₁, ih h₂]

theorem mem_keys_of_mapGet_eq_some {α : Type} {m : List (Nat × α)} {k : Nat}
    {v : α} (h : mapGet m k = some v) : k ∈ m.map Prod.fst :=
  List.mem_map.mpr ⟨(k, v), mapGet_eq_some_mem h, rfl⟩

theorem mapGet_of_mem {α : Type} {m : List (Nat × α)} {k : Nat} {v : α}
    (hd : (m.map Prod.fst).Nodup) (h : (k, v) ∈ m) : mapGet m k = some v := by
  induction m with
  | nil => simp at h
  | cons kv rest ih =>
    obtain ⟨k₀, v₀⟩ := kv
    rw [List.map_cons, List.nodup_cons] at hd
    rcases List.mem_cons.mp h with h | h
    · rw [show k₀ = k from congrArg Prod.fst h.symm]
      simp [mapGet, show v₀ = v from congrArg Prod.snd h.symm]
    · have hk : k₀ ≠ k := by
        intro e
        subst e
        exact hd.1 (List.mem_map.mpr ⟨(k₀, v), h, rfl⟩)
      simp [mapGet, hk, ih hd.2 h]

theorem keys_mapSet_of_get_some {α : Type} {m : List (Nat × α)} {k : Nat}
    {w : α} (v : α) (h : mapGet m k = some w) :
    (mapSet m k v).map Prod.fst = m.map Prod.fst := by
  induction m with
  | nil => simp [mapGet] at h
  | cons kv rest ih =>
    obtain ⟨k₀, v₀⟩ := kv
    by_cases hk : k₀ = k
    · simp [mapSet, hk]
    · simp [mapGet, hk] at h
      simp [mapSet, hk, ih h]

theorem keys_mapSet_of_get_none {α : Type} {m : List (Nat × α)} {k : Nat}
    (v : α) (h : mapGet m k = none) :
    (mapSet m k v).map Prod.fst = m.map Prod.fst ++ [k] := by
  induction m with
  | nil => simp [mapSet]
  | cons kv rest ih =>
    obtain ⟨k₀, v₀⟩ := kv
    by_cases hk : k₀ = k
    · simp [mapGet, hk] at h
    · simp [mapGet, hk] at h
      simp [mapSet, hk, ih h]

theorem nodup_keys_mapSet {α : Type} {m : List (Nat × α)} (k : Nat) (v : α)
    (hd : (m.map Prod.fst).Nodup) : ((mapSet m k v).map Prod.fst).Nodup := by
  cases h : mapGet m k with
  | none =>
    rw [keys_mapSet_of_get_none v h]
    have hk : k ∉ m.map Prod.fst := by
      intro hm
      rcases List.mem_map.mp hm with ⟨⟨a, b⟩, hmem, ha⟩
      cases ha
      rw [mapGet_of_mem hd hmem] at h
      cases h
    exact List.Nodup.append hd (by simp) (by simpa using hk)
  | some w =>
    rw [keys_mapSet_of_get_some v h]
    exact hd

theorem keys_delete_sublist {α : Type} (m : List (Nat × α)) (k : Nat) :
    List.Sublist ((mapDelete m k).map Prod.fst) (m.map Prod.fst) := by
  induction m with
  | nil => simp [mapDelete]
  | cons kv rest ih =>
    obtain ⟨k₀, v₀⟩ := kv
    by_cases hk : k₀ = k
    · simp only [mapDelete, if_pos hk, List.map_cons]
      exact ih.cons _
    · simp only [mapDelete, if_neg hk, List.map_cons]
      exact ih.cons₂ _

/-- Client record after the stale-restoration step of handleMessage. -/
def restoredClient (now : Nat) (c : ClientState) : ClientState :=
  { c with status := ClientStatus.connected, lastSeen := now,
           staleTimestamp := none }

/-- Manager state after the stale-restoration step of handleMessage. -/
def restoreSt (now p : Nat) (c : ClientState) (s : PortManagerState) :
    PortManagerState :=
  { s with clients := mapSet s.clients p (restoredClient now c) }

theorem handleMessage_connected {s : PortManagerState} {p : Nat}
    {c : ClientState} (now : Nat) (data : Msg)
    (hc : mapGet s.clients p = some c)
    (hst : c.status = ClientStatus.connected) :
    handleMessage now p data s = routeMessage now p data s := by
  simp only [handleMessage, hc, hst]
  simp

theorem handleMessage_stale {s : PortManagerState} {p : Nat}
    {c : ClientState} (now : Nat) (data : Msg)
    (hc : mapGet s.clients p = some c)
    (hst : c.status = ClientStatus.stale) :
    handleMessage now p data s =
      ((routeMessage now p data (restoreSt now p c s)).1,
       updateClientCount (restoreSt now p c s) ++
         (routeMessage now p data (restoreSt now p c s)).2) := by
  simp only [handleMessage, hc, hst, restoreSt, restoredClient]
  simp

/-- C10: handling an inbound pong from a connected client only rewrites that
client record with an updated lastSeen; it adds no client, removes none,
changes no visible flag or status, and emits no postMessage, no client-count
broadcast, no onActiveCountChange callback and no onMessage callback. -/
theorem c10_pong_frame {s : PortManagerState} {p : Nat} {c : ClientState}
    (now : Nat) (hc : mapGet s.clients p = some c)
    (hst : c.status = ClientStatus.connected) :
    handleMessage now p Msg.pong s =
      ({ s with clients := mapSet s.clients p ({ c with lastSeen := now }) },
        []) ∧
    (∀ q, q ≠ p →
      mapGet (handleMessage now p Msg.pong s).1.clients q =
        mapGet s.clients q) ∧
    mapGet (handleMessage now p Msg.pong s).1.clients p =
      some ({ c with lastSeen := now }) := by
  have he : handleMessage now p Msg.pong s =
      ({ s with clients := mapSet s.clients p ({ c with lastSeen := now }) },
        []) := by
    rw [handleMessage_connected now Msg.pong hc hst]
    simp [routeMessage, hc]
  refine ⟨he, ?_, ?_⟩
  · intro q hq
    rw [he]
    exact mapGet_set_ne s.clients _ hq
  · rw [he]
    exact mapGet_set_self s.clients p _

/-- Client with one connection at time 0, used as a concrete input. -/
def wConnState : PortManagerState := (handleConnect 0 1 initState).1

/-- Connected client record of wConnState. -/
def wConnClient : ClientState := ⟨true, 0, ClientStatus.connected, none, 0⟩

theorem c10_pong_frame_witness :
    handleMessage 500 1 Msg.pong wConnState =
      ({ wConnState with
          clients := mapSet wConnState.clients 1 (restoredClient 500 wConnClient) }, []) :=
  (@c10_pong_frame wConnState 1 wConnClient 500 (by decide) (by decide)).1

/-- C1: any inbound message from a stale client first restores it, and the
restoration (with its count broadcast and callback) is emitted before any
effect of processing the message itself; after handling, the client is
connected with lastSeen reset and the stale timestamp cleared, except that a
disconnect message removes the freshly restored entry. -/
theorem c1_stale_restored_before_processing {s : PortManagerState} {p : Nat}
    {c : ClientState} (now : Nat) (data : Msg)
    (hc : mapGet s.clients p = some c)
    (hst : c.status = ClientStatus.stale) :
    (∃ rest, (handleMessage now p data s).2 =
       updateClientCount (restoreSt now p c s) ++ rest) ∧
    (data = Msg.disconnect →
       mapGet (handleMessage now p data s).1.clients p = none) ∧
    (data ≠ Msg.disconnect →
       ∃ c', mapGet (handleMessage now p data s).1.clients p = some c' ∧
         c'.status = ClientStatus.connected ∧ c'.staleTimestamp = none ∧
         c'.lastSeen = now) := by
  rw [handleMessage_stale now data hc hst]
  refine ⟨⟨(routeMessage now p data (restoreSt now p c s)).2, rfl⟩, ?_, ?_⟩
  · rintro rfl
    simp [routeMessage, removeClient, restoreSt, mapGet_set_self,
      mapGet_delete_self]
  · intro hne
    cases data with
    | disconnect => exact absurd rfl hne
    | ping =>
      exact ⟨restoredClient now c,
        by simp [routeMessage, restoreSt, mapGet_set_self], rfl, rfl, rfl⟩
    | pong =>
      refine ⟨{ restoredClient now c with lastSeen := now }, ?_, rfl, rfl, rfl⟩
      simp [routeMessage, restoreSt, mapGet_set_self]
    | visibilityChange v =>
      refine ⟨{ restoredClient now c with visible := v.getD true }, ?_, rfl,
        rfl, rfl⟩
      simp [routeMessage, restoreSt, mapGet_set_self]
    | clientCount t a =>
      exact ⟨restoredClient now c,
        by simp [routeMessage, restoreSt, mapGet_set_self], rfl, rfl, rfl⟩
    | app n =>
      exact ⟨restoredClient now c,
        by simp [routeMessage, restoreSt, mapGet_set_self], rfl, rfl, rfl⟩

/-- Default configuration: pingInterval 10000, pingTimeout 5000,
staleClientTimeout unset. -/
def cfgW : PortManagerOptions := ⟨10000, 5000, none⟩

/-- One client connected at time 0, then the heartbeat sweeps at t = 10000
and t = 20000 with no pong: at the second sweep the client goes stale. -/
def wStaleState : PortManagerState := runTicks cfgW [10000, 20000] wConnState

/-- Stale client record of wStaleState. -/
def wStaleClient : ClientState := ⟨true, 0, ClientStatus.stale, some 20000, 0⟩

theorem c1_stale_restored_before_processing_witness :
    ∃ c', mapGet (handleMessage 21000 1 (Msg.app 7) wStaleState).1.clients 1 =
        some c' ∧
      c'.status = ClientStatus.connected ∧ c'.staleTimestamp = none ∧
      c'.lastSeen = 21000 :=
  (@c1_stale_restored_before_processing wStaleState 1 wStaleClient 21000
    (Msg.app 7) (by decide) (by decide)).2.2 (by decide)

theorem removeStaleClients_count (s : PortManagerState) :
    (removeStaleClients s).2 = getStaleCount s := by
  simp only [removeStaleClients, getStaleCount]
  split <;> rfl

theorem removeStaleClients_fst (s : PortManagerState) :
    (removeStaleClients s).1.1 =
      { s with
        clients := s.clients.filter (fun pc => pc.2.status.isConnected),
        aborted := (s.clients.filter (fun pc => pc.2.status.isStale)).map
          (fun pc => pc.2.controller) ++ s.aborted } := by
  simp only [removeStaleClients]
  split <;> rfl

theorem filter_connected_no_stale (l : List (Nat × ClientState)) :
    (l.filter (fun pc => pc.2.status.isConnected)).filter
      (fun pc => pc.2.status.isStale) = [] := by
  rw [List.filter_filter]
  refine List.filter_eq_nil_iff.mpr ?_
  intro a _
  cases h : a.2.status <;>
    simp [ClientStatus.isConnected, ClientStatus.isStale, h]

/-- C6: removeStaleClients returns the number of stale entries it evicts, the
post state has no stale entry, and a second call immediately after returns 0
and leaves the state unchanged. -/
theorem c6_removeStaleClients_exact (s : PortManagerState) :
    (removeStaleClients s).2 = getStaleCount s ∧
    getStaleCount (removeStaleClients s).1.1 = 0 ∧
    (removeStaleClients (removeStaleClients s).1.1).2 = 0 ∧
    (removeStaleClients (removeStaleClients s).1.1).1.1 =
      (removeStaleClients s).1.1 := by
  have hzero : getStaleCount (removeStaleClients s).1.1 = 0 := by
    rw [removeStaleClients_fst]
    simp only [getStaleCount]
    rw [filter_connected_no_stale]
    rfl
  refine ⟨removeStaleClients_count s, hzero, ?_, ?_⟩
  · rw [removeStaleClients_count, hzero]
  · rw [removeStaleClients_fst (removeStaleClients s).1.1]
    have hstale : (removeStaleClients s).1.1.clients.filter
        (fun pc => pc.2.status.isStale) = [] := by
      rw [removeStaleClients_fst]
      exact filter_connected_no_stale s.clients
    have hconn : (removeStaleClients s).1.1.clients.filter
        (fun pc => pc.2.status.isConnected) = (removeStaleClients s).1.1.clients :=
      List.filter_eq_self.mpr (fun a ha => by
        rw [removeStaleClients_fst] at ha
        exact (List.mem_filter.mp ha).2)
    rw [hstale, hconn]
    simp

/-- C3 counterexample input: the only sweep by t = 15000 is the one at
t = 10000, after which the silent client is still connected. -/
theorem c3_scenarioA_not_stale_at_15000 :
    sweepTimes 10000 15000 = [10000] ∧
    getTotalCount (runTicks cfgW (sweepTimes 10000 15000) wConnState) = 1 ∧
    getStaleCount (runTicks cfgW (sweepTimes 10000 15000) wConnState) = 0 := by
  decide

/-- C3 amended: the client connected at t = 0 receives a ping at the t = 10000
sweep, is still connected after every sweep up to t = 15000, and at the next
sweep, t = 20000, it has become stale, with getTotalCount 0 and
getStaleCount 1. -/
theorem c3_scenarioA_amended :
    Eff.post 1 Msg.ping ∈ (checkClients cfgW 10000 wConnState).2 ∧
    getTotalCount (runTicks cfgW (sweepTimes 10000 15000) wConnState) = 1 ∧
    getStaleCount (runTicks cfgW (sweepTimes 10000 15000) wConnState) = 0 ∧
    getTotalCount (runTicks cfgW (sweepTimes 10000 20000) wConnState) = 0 ∧
    getStaleCount (runTicks cfgW (sweepTimes 10000 20000) wConnState) = 1 := by
  decide

/-- Two connected clients with distinct controllers, used as a concrete
clients map for broadcast failures. -/
def demoClients : List (Nat × ClientState) :=
  [(1, ⟨true, 0, ClientStatus.connected, none, 0⟩),
   (2, ⟨true, 0, ClientStatus.connected, none, 1⟩)]

/-- C7 counterexample: with two connected clients, a postMessage failure on
the first one makes the broadcast loop deliver to nobody else and propagate
the failure to the caller, since the loop catches nothing. -/
theorem c7_broadcast_failure_not_caught :
    (broadcastTry (fun q => q == 1) (Msg.app 5) demoClients).2 = some 1 ∧
    Eff.post 2 (Msg.app 5) ∉
      (broadcastTry (fun q => q == 1) (Msg.app 5) demoClients).1 := by
  decide

/-- C7 amended: a postMessage failure on a connected client aborts the
broadcast loop at that client: the connected clients before it in map order
have already received the message, nothing after it receives anything, and
the failure propagates out of broadcast. -/
theorem c7_broadcast_failure_aborts_loop (failing : Nat → Bool) (m : Msg)
    (pre post : List (Nat × ClientState)) (p : Nat) (c : ClientState)
    (hc : c.status = ClientStatus.connected) (hf : failing p = true)
    (hpre : ∀ qc ∈ pre, qc.2.status = ClientStatus.connected →
      failing qc.1 = false) :
    broadcastTry failing m (pre ++ (p, c) :: post) =
      (pre.filterMap (fun qc =>
        if qc.2.status.isConnected then some (Eff.post qc.1 m) else none),
       some p) := by
  induction pre with
  | nil =>
    simp [broadcastTry, hc, ClientStatus.isConnected, hf]
  | cons qc rest ih =>
    have hq := hpre qc (List.mem_cons_self qc rest)
    have hrest : ∀ x ∈ rest, x.2.status = ClientStatus.connected →
        failing x.1 = false :=
      fun x hx => hpre x (List.mem_cons_of_mem qc hx)
    cases hcs : qc.2.status with
    | connected =>
      simp [broadcastTry, hcs, ClientStatus.isConnected, hq hcs, ih hrest,
        List.filterMap_cons]
    | stale =>
      simp [broadcastTry, hcs, ClientStatus.isConnected, ih hrest,
        List.filterMap_cons]

theorem c7_broadcast_failure_aborts_loop_witness :
    broadcastTry (fun q => q == 2) (Msg.app 5)
        ([(1, ⟨true, 0, ClientStatus.connected, none, 0⟩)] ++
          (2, ⟨true, 0, ClientStatus.connected, none, 1⟩) :: []) =
      ([Eff.post 1 (Msg.app 5)], some 2) :=
  c7_broadcast_failure_aborts_loop (fun q => q == 2) (Msg.app 5)
    [(1, ⟨true, 0, ClientStatus.connected, none, 0⟩)] []
    2 ⟨true, 0, ClientStatus.connected, none, 1⟩
    (by decide) (by decide) (by decide)

/-- Invariant satisfied by every state reachable with fresh ports: the
clients map and the listener registrations have no duplicate keys, every
controller id in play is below the issue counter, every registered client
owns the one unaborted listener of its port, every port absent from the map
has all its listeners aborted, and stale status and staleTimestamp coincide. -/
structure Inv (s : PortManagerState) : Prop where
  clientsNodup : (s.clients.map Prod.fst).Nodup
  listenersNodup : (s.listeners.map Prod.fst).Nodup
  ctrlsNodup : (s.listeners.map Prod.snd).Nodup
  ctrlBound : ∀ l ∈ s.listeners, l.2 < s.nextCtrl
  abortedBound : ∀ k ∈ s.aborted, k < s.nextCtrl
  ctrlOfClient : ∀ p c, mapGet s.clients p = some c →
    (p, c.controller) ∈ s.listeners ∧ c.controller ∉ s.aborted
  removedAborted : ∀ p, mapGet s.clients p = none →
    ∀ ctrl, (p, ctrl) ∈ s.listeners → ctrl ∈ s.aborted
  staleIff : ∀ p c, mapGet s.clients p = some c →
    (c.status = ClientStatus.stale ↔ c.staleTimestamp.isSome = true)

theorem listenerActive_iff {s : PortManagerState} {p : Nat} :
    listenerActive s p = true ↔
      ∃ l ∈ s.listeners, l.1 = p ∧ l.2 ∉ s.aborted := by
  simp only [listenerActive, List.any_eq_true, Bool.and_eq_true, beq_iff_eq,
    Bool.not_eq_true']
  constructor
  · rintro ⟨l, hl, h1, h2⟩
    refine ⟨l, hl, h1, fun hm => ?_⟩
    have h3 : s.aborted.contains l.2 = true := List.elem_iff.mpr hm
    rw [h3] at h2
    cases h2
  · rintro ⟨l, hl, h1, h2⟩
    refine ⟨l, hl, h1, ?_⟩
    cases he : s.aborted.contains l.2 with
    | false => rfl
    | true => exact absurd (List.elem_iff.mp he) h2

theorem listenerActive_of_client {s : PortManagerState} (hi : Inv s)
    {p : Nat} {c : ClientState} (hc : mapGet s.clients p = some c) :
    listenerActive s p = true := by
  obtain ⟨hmem, hab⟩ := hi.ctrlOfClient p c hc
  exact listenerActive_iff.mpr ⟨(p, c.controller), hmem, rfl, hab⟩

theorem client_isSome_of_listenerActive {s : PortManagerState} (hi : Inv s)
    {p : Nat} (h : listenerActive s p = true) :
    (mapGet s.clients p).isSome = true := by
  cases hc : mapGet s.clients p with
  | some c => rfl
  | none =>
    rcases listenerActive_iff.mp h with ⟨⟨q, ctrl⟩, hl, h1, h2⟩
    cases h1
    exact absurd (hi.removedAborted _ hc ctrl hl) h2

theorem client_ctrl_inj {s : PortManagerState} (hi : Inv s) {p q : Nat}
    {cp cq : ClientState} (hp : mapGet s.clients p = some cp)
    (hq : mapGet s.clients q = some cq)
    (he : cp.controller = cq.controller) : p = q := by
  obtain ⟨hpl, _⟩ := hi.ctrlOfClient p cp hp
  obtain ⟨hql, _⟩ := hi.ctrlOfClient q cq hq
  have := List.inj_on_of_nodup_map hi.ctrlsNodup hpl hql (by simpa using he)
  exact congrArg Prod.fst this

theorem listener_port_inj {s : PortManagerState} (hi : Inv s) {p : Nat}
    {k k' : Nat} (h : (p, k) ∈ s.listeners) (h' : (p, k') ∈ s.listeners) :
    k = k' := by
  have := List.inj_on_of_nodup_map hi.listenersNodup h h' rfl
  exact congrArg Prod.snd this

theorem inv_initState : Inv initState := by
  refine ⟨?_, ?_, ?_, ?_, ?_, ?_, ?_, ?_⟩ <;>
    simp [initState, mapGet]


theorem inv_addClient {s : PortManagerState} (hi : Inv s) {p : Nat}
    (now : Nat) (hf : freshPort s p) : Inv (addClient now p s) := by
  have hnone : mapGet s.clients p = none := by
    cases hc : mapGet s.clients p with
    | none => rfl
    | some c => exact absurd rfl (hf _ (hi.ctrlOfClient p c hc).1)
  have hcl : (addClient now p s).clients =
      mapSet s.clients p ⟨true, now, ClientStatus.connected, none, s.nextCtrl⟩ :=
    rfl
  have hls : (addClient now p s).listeners =
      s.listeners ++ [(p, s.nextCtrl)] := rfl
  have hab : (addClient now p s).aborted = s.aborted := rfl
  have hnx : (addClient now p s).nextCtrl = s.nextCtrl + 1 := rfl
  constructor
  case clientsNodup =>
    rw [hcl]
    exact nodup_keys_mapSet p _ hi.clientsNodup
  case listenersNodup =>
    rw [hls, List.map_append]
    refine List.Nodup.append hi.listenersNodup (by simp) ?_
    intro a ha hb
    simp only [List.map_cons, List.map_nil, List.mem_singleton] at hb
    rcases List.mem_map.mp ha with ⟨l, hl, he⟩
    exact hf l hl (by rw [he, hb])
  case ctrlsNodup =>
    rw [hls, List.map_append]
    refine List.Nodup.append hi.ctrlsNodup (by simp) ?_
    intro a ha hb
    simp only [List.map_cons, List.map_nil, List.mem_singleton] at hb
    rcases List.mem_map.mp ha with ⟨l, hl, he⟩
    have := hi.ctrlBound l hl
    rw [he, hb] at this
    exact lt_irrefl _ this
  case ctrlBound =>
    intro l hl
    rw [hls] at hl
    rw [hnx]
    rcases List.mem_append.mp hl with h | h
    · exact lt_trans (hi.ctrlBound l h) (Nat.lt_succ_self _)
    · rw [List.mem_singleton.mp h]
      exact Nat.lt_succ_self _
  case abortedBound =>
    intro k hk
    rw [hab] at hk
    rw [hnx]
    exact lt_trans (hi.abortedBound k hk) (Nat.lt_succ_self _)
  case ctrlOfClient =>
    intro q c hc
    rw [hcl] at hc
    rw [hls, hab]
    by_cases hq : q = p
    · subst hq
      rw [mapGet_set_self] at hc
      cases hc
      refine ⟨List.mem_append_right _ (by simp), fun hm => ?_⟩
      exact lt_irrefl _ (hi.abortedBound _ hm)
    · rw [mapGet_set_ne _ _ hq] at hc
      obtain ⟨h1, h2⟩ := hi.ctrlOfClient q c hc
      exact ⟨List.mem_append_left _ h1, h2⟩
  case removedAborted =>
    intro q hq ctrl hctrl
    rw [hcl] at hq
    rw [hls] at hctrl
    rw [hab]
    by_cases hqp : q = p
    · subst hqp
      rw [mapGet_set_self] at hq
      cases hq
    · rw [mapGet_set_ne _ _ hqp] at hq
      rcases List.mem_append.mp hctrl with h | h
      · exact hi.removedAborted q hq ctrl h
      · exact absurd (congrArg Prod.fst (List.mem_singleton.mp h)) hqp
  case staleIff =>
    intro q c hc
    rw [hcl] at hc
    by_cases hq : q = p
    · subst hq
      rw [mapGet_set_self] at hc
      cases hc
      simp
    · rw [mapGet_set_ne _ _ hq] at hc
      exact hi.staleIff q c hc

theorem inv_setEntry {s : PortManagerState} (hi : Inv s) {p : Nat}
    {c c' : ClientState} (hc : mapGet s.clients p = some c)
    (hctrl : c'.controller = c.controller)
    (hsi : c'.status = ClientStatus.stale ↔ c'.staleTimestamp.isSome = true) :
    Inv { s with clients := mapSet s.clients p c' } := by
  constructor
  case clientsNodup => exact nodup_keys_mapSet p _ hi.clientsNodup
  case listenersNodup => exact hi.listenersNodup
  case ctrlsNodup => exact hi.ctrlsNodup
  case ctrlBound => exact hi.ctrlBound
  case abortedBound => exact hi.abortedBound
  case ctrlOfClient =>
    intro q d hd
    simp only at hd
    by_cases hq : q = p
    · subst hq
      rw [mapGet_set_self] at hd
      cases hd
      rw [hctrl]
      exact hi.ctrlOfClient q c hc
    · rw [mapGet_set_ne _ _ hq] at hd
      exact hi.ctrlOfClient q d hd
  case removedAborted =>
    intro q hq ctrl hctrl'
    simp only at hq
    by_cases hqp : q = p
    · subst hqp
      rw [mapGet_set_self] at hq
      cases hq
    · rw [mapGet_set_ne _ _ hqp] at hq
      exact hi.removedAborted q hq ctrl hctrl'
  case staleIff =>
    intro q d hd
    simp only at hd
    by_cases hq : q = p
    · subst hq
      rw [mapGet_set_self] at hd
      cases hd
      exact hsi
    · rw [mapGet_set_ne _ _ hq] at hd
      exact hi.staleIff q d hd

theorem inv_removeClient {s : PortManagerState} (hi : Inv s) (p : Nat) :
    Inv (removeClient p s) := by
  cases hc : mapGet s.clients p with
  | none => simpa [removeClient, hc] using hi
  | some c =>
    have hcl : (removeClient p s).clients = mapDelete s.clients p := by
      simp [removeClient, hc]
    have hls : (removeClient p s).listeners = s.listeners := by
      simp [removeClient, hc]
    have hab : (removeClient p s).aborted = c.controller :: s.aborted := by
      simp [removeClient, hc]
    have hnx : (removeClient p s).nextCtrl = s.nextCtrl := by
      simp [removeClient, hc]
    constructor
    case clientsNodup =>
      rw [hcl]
      exact List.Nodup.sublist (keys_delete_sublist s.clients p) hi.clientsNodup
    case listenersNodup => rw [hls]; exact hi.listenersNodup
    case ctrlsNodup => rw [hls]; exact hi.ctrlsNodup
    case ctrlBound => rw [hls, hnx]; exact hi.ctrlBound
    case abortedBound =>
      rw [hab, hnx]
      intro k hk
      rcases List.mem_cons.mp hk with h | h
      · rw [h]
        exact hi.ctrlBound _ (hi.ctrlOfClient p c hc).1
      · exact hi.abortedBound k h
    case ctrlOfClient =>
      intro q d hd
      rw [hcl] at hd
      rw [hls, hab]
      by_cases hq : q = p
      · subst hq
        rw [mapGet_delete_self] at hd
        cases hd
      · rw [mapGet_delete_ne _ hq] at hd
        obtain ⟨h1, h2⟩ := hi.ctrlOfClient q d hd
        refine ⟨h1, fun hm => ?_⟩
        rcases List.mem_cons.mp hm with h | h
        · exact hq (client_ctrl_inj hi hd hc h)
        · exact h2 h
    case removedAborted =>
      intro q hq ctrl hctrl
      rw [hcl] at hq
      rw [hls] at hctrl
      rw [hab]
      by_cases hqp : q = p
      · subst hqp
        have := listener_port_inj hi hctrl (hi.ctrlOfClient q c hc).1
        rw [this]
        exact List.mem_cons_self _ _
      · rw [mapGet_delete_ne _ hqp] at hq
        exact List.mem_cons_of_mem _ (hi.removedAborted q hq ctrl hctrl)
    case staleIff =>
      intro q d hd
      rw [hcl] at hd
      by_cases hq : q = p
      · subst hq
        rw [mapGet_delete_self] at hd
        cases hd
      · rw [mapGet_delete_ne _ hq] at hd
        exact hi.staleIff q d hd

theorem inv_routeMessage {s : PortManagerState} (hi : Inv s) (now p : Nat)
    (data : Msg) : Inv (routeMessage now p data s).1 := by
  cases data with
  | visibilityChange v =>
    simp only [routeMessage]
    cases hc : mapGet s.clients p with
    | none => exact hi
    | some c =>
      exact inv_setEntry hi hc rfl (by simpa using hi.staleIff p c hc)
  | disconnect => exact inv_removeClient hi p
  | pong =>
    simp only [routeMessage]
    cases hc : mapGet s.clients p with
    | none => exact hi
    | some c =>
      exact inv_setEntry hi hc rfl (by simpa using hi.staleIff p c hc)
  | ping => exact hi
  | clientCount t a => exact hi
  | app n => exact hi

theorem inv_handleMessage {s : PortManagerState} (hi : Inv s) (now p : Nat)
    (data : Msg) (hen : listenerActive s p = true) :
    Inv (handleMessage now p data s).1 := by
  have hsome := client_isSome_of_listenerActive hi hen
  cases hc : mapGet s.clients p with
  | none => rw [hc] at hsome; cases hsome
  | some c =>
    cases hst : c.status with
    | connected =>
      rw [handleMessage_connected now data hc hst]
      exact inv_routeMessage hi now p data
    | stale =>
      rw [handleMessage_stale now data hc hst]
      have hres : Inv (restoreSt now p c s) :=
        inv_setEntry hi hc rfl (by simp [restoredClient])
      exact inv_routeMessage hres now p data

theorem keys_filterMapVal_sublist {α β : Type} (g : α → Option β)
    (m : List (Nat × α)) :
    List.Sublist
      ((m.filterMap (fun pc => (g pc.2).map (fun c => (pc.1, c)))).map Prod.fst)
      (m.map Prod.fst) := by
  induction m with
  | nil => simp
  | cons pc rest ih =>
    obtain ⟨k, v⟩ := pc
    cases hg : g v with
    | none =>
      simp only [List.filterMap_cons, hg, Option.map_none', List.map_cons]
      exact ih.cons _
    | some c =>
      simp only [List.filterMap_cons, hg, Option.map_some', List.map_cons]
      exact ih.cons₂ _

theorem mapGet_filterMapVal {α β : Type} (g : α → Option β)
    {m : List (Nat × α)} (hd : (m.map Prod.fst).Nodup) (k : Nat) :
    mapGet (m.filterMap (fun pc => (g pc.2).map (fun c => (pc.1, c)))) k =
      (mapGet m k).bind g := by
  induction m with
  | nil => simp [mapGet]
  | cons pc rest ih =>
    obtain ⟨k₀, v⟩ := pc
    rw [List.map_cons, List.nodup_cons] at hd
    by_cases hk : k₀ = k
    · subst hk
      cases hg : g v with
      | none =>
        have hnot : k₀ ∉ (rest.filterMap
            (fun pc => (g pc.2).map (fun c => (pc.1, c)))).map Prod.fst :=
          fun hm => hd.1 ((keys_filterMapVal_sublist g rest).subset hm)
        simp only [List.filterMap_cons, hg, Option.map_none']
        rw [mapGet_eq_none_of_not_mem_keys hnot]
        simp [mapGet, hg]
      | some c =>
        simp [List.filterMap_cons, hg, mapGet]
    · cases hg : g v with
      | none =>
        simp only [List.filterMap_cons, hg, Option.map_none']
        rw [ih hd.2]
        simp [mapGet, hk]
      | some c =>
        simp only [List.filterMap_cons, hg, Option.map_some']
        simp only [mapGet, hk, if_neg hk]
        exact ih hd.2

theorem checkEntry_controller {cfg : PortManagerOptions} {now : Nat}
    {c d : ClientState} (h : checkEntry cfg now c = some d) :
    d.controller = c.controller := by
  simp only [checkEntry] at h
  split at h
  · split at h <;> {
      cases h
      rfl }
  · split at h
    · split at h
      · cases h
      · cases h
        rfl
    · cases h
      rfl

theorem checkEntry_staleIff {cfg : PortManagerOptions} {now : Nat}
    {c d : ClientState}
    (hsi : c.status = ClientStatus.stale ↔ c.staleTimestamp.isSome = true)
    (h : checkEntry cfg now c = some d) :
    d.status = ClientStatus.stale ↔ d.staleTimestamp.isSome = true := by
  simp only [checkEntry] at h
  split at h
  · split at h
    · cases h
      simp
    · cases h
      exact hsi
  · split at h
    · split at h
      · cases h
      · cases h
        exact hsi
    · cases h
      exact hsi

theorem checkClients_clients (cfg : PortManagerOptions) (now : Nat)
    (s : PortManagerState) :
    (checkClients cfg now s).1.clients =
      s.clients.filterMap
        (fun pc => (checkEntry cfg now pc.2).map (fun c => (pc.1, c))) := by
  simp only [checkClients]
  split <;> rfl

theorem checkClients_listeners (cfg : PortManagerOptions) (now : Nat)
    (s : PortManagerState) :
    (checkClients cfg now s).1.listeners = s.listeners := by
  simp only [checkClients]
  split <;> rfl

theorem checkClients_aborted (cfg : PortManagerOptions) (now : Nat)
    (s : PortManagerState) :
    (checkClients cfg now s).1.aborted =
      (s.clients.filterMap (fun pc =>
        if checkEntry cfg now pc.2 = none then some pc.2.controller
        else none)) ++ s.aborted := by
  simp only [checkClients]
  split <;> rfl

theorem checkClients_nextCtrl (cfg : PortManagerOptions) (now : Nat)
    (s : PortManagerState) :
    (checkClients cfg now s).1.nextCtrl = s.nextCtrl := by
  simp only [checkClients]
  split <;> rfl

theorem mem_checkClients_effs {cfg : PortManagerOptions} {now : Nat}
    {s : PortManagerState} {e : Eff} (h : e ∈ sweepEffs cfg now s.clients) :
    e ∈ (checkClients cfg now s).2 := by
  simp only [checkClients]
  split
  · exact List.mem_append_left _ h
  · exact h

theorem mem_sweepEffs_of_mem {cfg : PortManagerOptions} {now : Nat}
    {l : List (Nat × ClientState)} {pc : Nat × ClientState} (h : pc ∈ l)
    {e : Eff} (he : e ∈ checkEntryEffs cfg now pc.1 pc.2) :
    e ∈ sweepEffs cfg now l := by
  induction l with
  | nil => simp at h
  | cons qc rest ih =>
    rcases List.mem_cons.mp h with h | h
    · subst h
      exact List.mem_append_left _ he
    · exact List.mem_append_right _ (ih h)

theorem inv_checkClients {s : PortManagerState} (hi : Inv s)
    (cfg : PortManagerOptions) (now : Nat) :
    Inv (checkClients cfg now s).1 := by
  constructor
  case clientsNodup =>
    rw [checkClients_clients]
    exact List.Nodup.sublist (keys_filterMapVal_sublist _ _) hi.clientsNodup
  case listenersNodup => rw [checkClients_listeners]; exact hi.listenersNodup
  case ctrlsNodup => rw [checkClients_listeners]; exact hi.ctrlsNodup
  case ctrlBound =>
    rw [checkClients_listeners, checkClients_nextCtrl]
    exact hi.ctrlBound
  case abortedBound =>
    rw [checkClients_aborted, checkClients_nextCtrl]
    intro k hk
    rcases List.mem_append.mp hk with h | h
    · rcases List.mem_filterMap.mp h with ⟨pc, hmem, hif⟩
      split at hif
      · cases hif
        have hlk := mapGet_of_mem hi.clientsNodup
          (show (pc.1, pc.2) ∈ s.clients from hmem)
        exact hi.ctrlBound _ (hi.ctrlOfClient pc.1 pc.2 hlk).1
      · cases hif
    · exact hi.abortedBound k h
  case ctrlOfClient =>
    intro q d hd
    rw [checkClients_clients,
      mapGet_filterMapVal (checkEntry cfg now) hi.clientsNodup] at hd
    rw [checkClients_listeners, checkClients_aborted]
    cases hq : mapGet s.clients q with
    | none => rw [hq] at hd; cases hd
    | some c =>
      rw [hq] at hd
      have hce : checkEntry cfg now c = some d := hd
      rw [checkEntry_controller hce]
      obtain ⟨h1, h2⟩ := hi.ctrlOfClient q c hq
      refine ⟨h1, fun hm => ?_⟩
      rcases List.mem_append.mp hm with h | h
      · rcases List.mem_filterMap.mp h with ⟨pc, hmem, hif⟩
        split at hif
        case isTrue hnone =>
          have hinj : pc.2.controller = c.controller := by simpa using hif
          have hlk := mapGet_of_mem hi.clientsNodup
            (show (pc.1, pc.2) ∈ s.clients from hmem)
          have hpq := client_ctrl_inj hi hlk hq hinj
          subst hpq
          rw [hq] at hlk
          injection hlk with hlk2
          rw [hlk2] at hce
          rw [hnone] at hce
          cases hce
        case isFalse => cases hif
      · exact h2 h
  case removedAborted =>
    intro q hq ctrl hctrl
    rw [checkClients_clients,
      mapGet_filterMapVal (checkEntry cfg now) hi.clientsNodup] at hq
    rw [checkClients_listeners] at hctrl
    rw [checkClients_aborted]
    cases hql : mapGet s.clients q with
    | none =>
      exact List.mem_append_right _ (hi.removedAborted q hql ctrl hctrl)
    | some c =>
      rw [hql] at hq
      have hce : checkEntry cfg now c = none := hq
      have hcc := listener_port_inj hi hctrl (hi.ctrlOfClient q c hql).1
      subst hcc
      refine List.mem_append_left _ (List.mem_filterMap.mpr ?_)
      exact ⟨(q, c), mapGet_eq_some_mem hql, by simp [hce]⟩
  case staleIff =>
    intro q d hd
    rw [checkClients_clients,
      mapGet_filterMapVal (checkEntry cfg now) hi.clientsNodup] at hd
    cases hq : mapGet s.clients q with
    | none => rw [hq] at hd; cases hd
    | some c =>
      rw [hq] at hd
      exact checkEntry_staleIff (hi.staleIff q c hq) hd

theorem filter_eq_filterMapVal {α : Type} (g : α → Bool)
    (m : List (Nat × α)) :
    m.filter (fun pc => g pc.2) =
      m.filterMap (fun pc =>
        (if g pc.2 then some pc.2 else none).map (fun c => (pc.1, c))) := by
  induction m with
  | nil => simp
  | cons pc rest ih =>
    cases hg : g pc.2 <;>
      simp [List.filter_cons, List.filterMap_cons, hg, ih]

theorem mapGet_filter {α : Type} (g : α → Bool) {m : List (Nat × α)}
    (hd : (m.map Prod.fst).Nodup) (k : Nat) :
    mapGet (m.filter (fun pc => g pc.2)) k =
      (mapGet m k).bind (fun c => if g c then some c else none) := by
  rw [filter_eq_filterMapVal g m]
  exact mapGet_filterMapVal (fun c => if g c then some c else none) hd k

theorem keys_filter_sublist {α : Type} (g : Nat × α → Bool)
    (m : List (Nat × α)) :
    List.Sublist ((m.filter g).map Prod.fst) (m.map Prod.fst) :=
  List.Sublist.map _ (List.filter_sublist m)

theorem not_connected_and_stale (c : ClientState) :
    ¬ (c.status.isConnected = true ∧ c.status.isStale = true) := by
  cases c.status <;> simp [ClientStatus.isConnected, ClientStatus.isStale]

theorem inv_removeStaleClients {s : PortManagerState} (hi : Inv s) :
    Inv (removeStaleClients s).1.1 := by
  rw [removeStaleClients_fst]
  constructor
  case clientsNodup =>
    exact List.Nodup.sublist (keys_filter_sublist _ _) hi.clientsNodup
  case listenersNodup => exact hi.listenersNodup
  case ctrlsNodup => exact hi.ctrlsNodup
  case ctrlBound => exact hi.ctrlBound
  case abortedBound =>
    intro k hk
    rcases List.mem_append.mp hk with h | h
    · rcases List.mem_map.mp h with ⟨pc, hmem, he⟩
      have hmem' := (List.mem_filter.mp hmem).1
      have hlk := mapGet_of_mem hi.clientsNodup
        (show (pc.1, pc.2) ∈ s.clients from hmem')
      rw [← he]
      exact hi.ctrlBound _ (hi.ctrlOfClient pc.1 pc.2 hlk).1
    · exact hi.abortedBound k h
  case ctrlOfClient =>
    intro q d hd
    simp only at hd
    rw [mapGet_filter (fun c => c.status.isConnected) hi.clientsNodup] at hd
    cases hq : mapGet s.clients q with
    | none => rw [hq] at hd; cases hd
    | some c =>
      rw [hq] at hd
      simp only [Option.bind] at hd
      by_cases hcon : c.status.isConnected
      · rw [if_pos hcon] at hd
        injection hd with hd2
        subst hd2
        obtain ⟨h1, h2⟩ := hi.ctrlOfClient q c hq
        refine ⟨h1, fun hm => ?_⟩
        rcases List.mem_append.mp hm with h | h
        · rcases List.mem_map.mp h with ⟨pc, hmem, he⟩
          have hst := (List.mem_filter.mp hmem).2
          have hmem' := (List.mem_filter.mp hmem).1
          have hlk := mapGet_of_mem hi.clientsNodup
            (show (pc.1, pc.2) ∈ s.clients from hmem')
          have hpq := client_ctrl_inj hi hlk hq he
          subst hpq
          rw [hq] at hlk
          injection hlk with hlk2
          rw [← hlk2] at hst
          exact not_connected_and_stale c ⟨hcon, hst⟩
        · exact h2 h
      · rw [if_neg hcon] at hd
        cases hd
  case removedAborted =>
    intro q hq ctrl hctrl
    simp only at hq hctrl
    rw [mapGet_filter (fun c => c.status.isConnected) hi.clientsNodup] at hq
    cases hql : mapGet s.clients q with
    | none =>
      exact List.mem_append_right _ (hi.removedAborted q hql ctrl hctrl)
    | some c =>
      rw [hql] at hq
      simp only [Option.bind] at hq
      by_cases hcon : c.status.isConnected
      · rw [if_pos hcon] at hq
        cases hq
      · have hst : c.status.isStale = true := by
          cases h : c.status
          · rw [h] at hcon
            exact absurd rfl hcon
          · rfl
        have hcc := listener_port_inj hi hctrl (hi.ctrlOfClient q c hql).1
        subst hcc
        refine List.mem_append_left _ (List.mem_map.mpr ?_)
        refine ⟨(q, c), List.mem_filter.mpr ⟨mapGet_eq_some_mem hql, hst⟩, rfl⟩
  case staleIff =>
    intro q d hd
    simp only at hd
    rw [mapGet_filter (fun c => c.status.isConnected) hi.clientsNodup] at hd
    cases hq : mapGet s.clients q with
    | none => rw [hq] at hd; cases hd
    | some c =>
      rw [hq] at hd
      simp only [Option.bind] at hd
      by_cases hcon : c.status.isConnected
      · rw [if_pos hcon] at hd
        injection hd with hd2
        subst hd2
        exact hi.staleIff q c hq
      · rw [if_neg hcon] at hd
        cases hd

theorem inv_destroy {s : PortManagerState} (hi : Inv s) :
    Inv (destroy s).1 := by
  constructor
  case clientsNodup => simp [destroy]
  case listenersNodup => exact hi.listenersNodup
  case ctrlsNodup => exact hi.ctrlsNodup
  case ctrlBound => exact hi.ctrlBound
  case abortedBound =>
    intro k hk
    simp only [destroy] at hk
    rcases List.mem_append.mp hk with h | h
    · rcases List.mem_map.mp h with ⟨pc, hmem, he⟩
      have hlk := mapGet_of_mem hi.clientsNodup
        (show (pc.1, pc.2) ∈ s.clients from hmem)
      rw [← he]
      exact hi.ctrlBound _ (hi.ctrlOfClient pc.1 pc.2 hlk).1
    · exact hi.abortedBound k h
  case ctrlOfClient =>
    intro q d hd
    simp only [destroy, mapGet] at hd
    exact Option.noConfusion hd
  case removedAborted =>
    intro q hq ctrl hctrl
    simp only [destroy] at hctrl ⊢
    cases hql : mapGet s.clients q with
    | none =>
      exact List.mem_append_right _ (hi.removedAborted q hql ctrl hctrl)
    | some c =>
      have hcc := listener_port_inj hi hctrl (hi.ctrlOfClient q c hql).1
      subst hcc
      refine List.mem_append_left _ (List.mem_map.mpr ?_)
      exact ⟨(q, c), mapGet_eq_some_mem hql, rfl⟩
  case staleIff =>
    intro q d hd
    simp only [destroy, mapGet] at hd
    exact Option.noConfusion hd

theorem freachable_inv {cfg : PortManagerOptions} {s : PortManagerState}
    (h : FReachable cfg s) : Inv s := by
  induction h with
  | init => exact inv_initState
  | step a hr hen ih =>
    cases a with
    | connect now p => exact inv_addClient ih now hen
    | message now p data => exact inv_handleMessage ih now p data hen
    | tick now => exact inv_checkClients ih cfg now
    | removeStale => exact inv_removeStaleClients ih
    | destroy => exact inv_destroy ih

theorem frWConn : FReachable cfgW wConnState :=
  FReachable.step (Action.connect 0 1) FReachable.init (by decide)

theorem frWStale : FReachable cfgW wStaleState :=
  FReachable.step (Action.tick 20000)
    (FReachable.step (Action.tick 10000) frWConn trivial) trivial

/-- C4: in every reachable state, a registered entry has its stale timestamp
set if and only if its status is stale. -/
theorem c4_stale_iff_staleTimestamp (cfg : PortManagerOptions)
    {s : PortManagerState} (h : FReachable cfg s) (p : Nat) (c : ClientState)
    (hc : mapGet s.clients p = some c) :
    (c.status = ClientStatus.stale ↔ c.staleTimestamp.isSome = true) :=
  (freachable_inv h).staleIff p c hc

theorem c4_stale_iff_staleTimestamp_witness :
    (wStaleClient.status = ClientStatus.stale ↔
      wStaleClient.staleTimestamp.isSome = true) :=
  c4_stale_iff_staleTimestamp cfgW frWStale 1 wStaleClient (by decide)

/-- C9 amended: in every state reachable with a fresh port per connection
event, a port is registered exactly when it still has an unaborted message
listener; in particular every removal fires the scope of the removed entry. -/
theorem c9_registry_scope_lockstep (cfg : PortManagerOptions)
    {s : PortManagerState} (h : FReachable cfg s) (p : Nat) :
    ((mapGet s.clients p).isSome = true ↔ listenerActive s p = true) := by
  have hi := freachable_inv h
  constructor
  · intro hs
    cases hc : mapGet s.clients p with
    | none => rw [hc] at hs; cases hs
    | some c => exact listenerActive_of_client hi hc
  · exact client_isSome_of_listenerActive hi

/-- C9 counterexample: a duplicate handleConnect for an already connected
port orphans the first listener, whose controller is never fired: after a
disconnect the port is absent from the registry while an unaborted listener
for it remains, so absence and a fired scope diverge. -/
def dupConnectState : PortManagerState :=
  applyAction cfgW (applyAction cfgW (applyAction cfgW initState
    (Action.connect 0 1)) (Action.connect 1 1))
    (Action.message 2 1 Msg.disconnect)

theorem c9_counterexample_duplicate_connect :
    Reachable cfgW dupConnectState ∧
    mapGet dupConnectState.clients 1 = none ∧
    listenerActive dupConnectState 1 = true := by
  refine ⟨?_, by decide, by decide⟩
  exact Reachable.step (Action.message 2 1 Msg.disconnect)
    (Reachable.step (Action.connect 1 1)
      (Reachable.step (Action.connect 0 1) Reachable.init trivial) trivial)
    (by decide)

def wMixed2 : PortManagerState := applyAction cfgW wConnState (Action.connect 0 2)

def wMixed3 : PortManagerState :=
  applyAction cfgW wMixed2 (Action.message 16000 2 Msg.pong)

/-- Reachable state with port 1 stale and port 2 connected. -/
def wMixedState : PortManagerState := applyAction cfgW wMixed3 (Action.tick 20000)

theorem frWMixed : FReachable cfgW wMixedState :=
  FReachable.step (Action.tick 20000)
    (FReachable.step (Action.message 16000 2 Msg.pong)
      (FReachable.step (Action.connect 0 2) frWConn (by decide))
      (by decide)) trivial

/-- C2: in every reachable state, broadcast posts the message exactly to the
registered entries whose status is connected; a stale or absent entry never
receives it. -/
theorem c2_broadcast_live_only (cfg : PortManagerOptions)
    {s : PortManagerState} (h : FReachable cfg s) (m : Msg) (p : Nat) :
    Eff.post p m ∈ broadcast s m ↔
      ∃ c, mapGet s.clients p = some c ∧
        c.status = ClientStatus.connected := by
  have hi := freachable_inv h
  simp only [broadcast, List.mem_filterMap]
  constructor
  · rintro ⟨pc, hmem, hif⟩
    by_cases hcon : pc.2.status.isConnected
    · rw [if_pos hcon] at hif
      injection hif with hinner
      injection hinner with h1 h2
      refine ⟨pc.2, ?_, ?_⟩
      · rw [← h1]
        exact mapGet_of_mem hi.clientsNodup
          (show (pc.1, pc.2) ∈ s.clients from hmem)
      · cases hcs : pc.2.status with
        | connected => rfl
        | stale =>
          rw [hcs] at hcon
          exact absurd hcon (by simp [ClientStatus.isConnected])
    · rw [if_neg hcon] at hif
      cases hif
  · rintro ⟨c, hc, hcs⟩
    refine ⟨(p, c), mapGet_eq_some_mem hc, ?_⟩
    simp [hcs, ClientStatus.isConnected]

theorem c2_broadcast_live_only_witness :
    Eff.post 2 (Msg.app 9) ∈ broadcast wMixedState (Msg.app 9) ∧
    Eff.post 1 (Msg.app 9) ∉ broadcast wMixedState (Msg.app 9) := by
  constructor
  · exact (c2_broadcast_live_only cfgW frWMixed (Msg.app 9) 2).mpr
      ⟨⟨true, 16000, ClientStatus.connected, none, 1⟩, by decide, rfl⟩
  · intro hm
    rcases (c2_broadcast_live_only cfgW frWMixed (Msg.app 9) 1).mp hm
      with ⟨c, hc, hcs⟩
    rw [show mapGet wMixedState.clients 1 = some wStaleClient by decide] at hc
    injection hc with hc2
    rw [← hc2] at hcs
    exact ClientStatus.noConfusion hcs

theorem routeMessage_frame {s : PortManagerState} (now q : Nat) (data : Msg)
    {p : Nat} (hne : p ≠ q) :
    mapGet (routeMessage now q data s).1.clients p = mapGet s.clients p := by
  cases data with
  | visibilityChange v =>
    simp only [routeMessage]
    cases hc : mapGet s.clients q with
    | none => rfl
    | some c => exact mapGet_set_ne _ _ hne
  | pong =>
    simp only [routeMessage]
    cases hc : mapGet s.clients q with
    | none => rfl
    | some c => exact mapGet_set_ne _ _ hne
  | disconnect =>
    simp only [routeMessage, removeClient]
    cases hc : mapGet s.clients q with
    | none => rfl
    | some c => exact mapGet_delete_ne _ hne
  | ping => rfl
  | clientCount t a => rfl
  | app n => rfl

theorem handleMessage_frame {s : PortManagerState} (hi : Inv s) (now q : Nat)
    (data : Msg) {p : Nat} (hne : p ≠ q)
    (hen : listenerActive s q = true) :
    mapGet (handleMessage now q data s).1.clients p = mapGet s.clients p := by
  have hsome := client_isSome_of_listenerActive hi hen
  cases hc : mapGet s.clients q with
  | none => rw [hc] at hsome; cases hsome
  | some c =>
    cases hst : c.status with
    | connected =>
      rw [handleMessage_connected now data hc hst]
      exact routeMessage_frame now q data hne
    | stale =>
      rw [handleMessage_stale now data hc hst]
      rw [routeMessage_frame now q data hne]
      exact mapGet_set_ne _ _ hne

/-- C8: with a fresh port per connection event, a port absent from the
registry stays absent under every action other than a new handleConnect for
it: its listener has been aborted on removal, so no message event can
re-register it, and sweeps, manual eviction and destroy never add entries. -/
theorem c8_removed_terminal (cfg : PortManagerOptions) {s : PortManagerState}
    (h : FReachable cfg s) (p : Nat) (a : Action)
    (hnone : mapGet s.clients p = none) (hen : enabledF s a)
    (hnc : ∀ now, a ≠ Action.connect now p) :
    mapGet (applyAction cfg s a).clients p = none := by
  have hi := freachable_inv h
  cases a with
  | connect now q =>
    have hq : p ≠ q := by
      intro e
      exact hnc now (by rw [e])
    show mapGet (addClient now q s).clients p = none
    have hcl : (addClient now q s).clients =
        mapSet s.clients q ⟨true, now, ClientStatus.connected, none,
          s.nextCtrl⟩ := rfl
    rw [hcl, mapGet_set_ne _ _ hq]
    exact hnone
  | message now q data =>
    by_cases hq : q = p
    · subst hq
      have hsome := client_isSome_of_listenerActive hi hen
      rw [hnone] at hsome
      cases hsome
    · exact (handleMessage_frame hi now q data (fun e => hq e.symm) hen).trans
        hnone
  | tick now =>
    show mapGet (checkClients cfg now s).1.clients p = none
    rw [checkClients_clients, mapGet_filterMapVal _ hi.clientsNodup, hnone]
    rfl
  | removeStale =>
    show mapGet (removeStaleClients s).1.1.clients p = none
    have hcl : (removeStaleClients s).1.1.clients =
        s.clients.filter (fun pc => pc.2.status.isConnected) := by
      rw [removeStaleClients_fst]
    rw [hcl, mapGet_filter (fun c => c.status.isConnected) hi.clientsNodup,
      hnone]
    rfl
  | destroy => rfl

def wRemovedState : PortManagerState :=
  applyAction cfgW wStaleState (Action.message 21000 1 Msg.disconnect)

theorem frWRemoved : FReachable cfgW wRemovedState :=
  FReachable.step (Action.message 21000 1 Msg.disconnect) frWStale (by decide)

theorem c8_removed_terminal_witness :
    mapGet (applyAction cfgW wRemovedState (Action.tick 30000)).clients 1 =
      none :=
  c8_removed_terminal cfgW frWRemoved 1 (Action.tick 30000) (by decide)
    trivial (fun now h => Action.noConfusion h)

theorem c9_registry_scope_lockstep_witness :
    ((mapGet wRemovedState.clients 1).isSome = true ↔
      listenerActive wRemovedState 1 = true) :=
  c9_registry_scope_lockstep cfgW frWRemoved 1

/-- C5: on a heartbeat sweep with staleClientTimeout configured, every stale
entry whose time since staling exceeds the timeout is evicted and the
structured auto-removal event carries the elapsed stale duration; with the
timeout unset, a sweep never touches a stale entry, which persists until
restored or manually evicted. -/
theorem c5_auto_eviction (cfg : PortManagerOptions) {s : PortManagerState}
    (h : FReachable cfg s) (now p ts timeout : Nat) (c : ClientState) :
    (cfg.staleClientTimeout = some timeout →
      mapGet s.clients p = some c → c.status = ClientStatus.stale →
      c.staleTimestamp = some ts → now - ts > timeout →
      mapGet (checkClients cfg now s).1.clients p = none ∧
      Eff.autoRemovedStaleClient (now - ts) ∈ (checkClients cfg now s).2) ∧
    (cfg.staleClientTimeout = none →
      mapGet s.clients p = some c → c.status = ClientStatus.stale →
      mapGet (checkClients cfg now s).1.clients p = some c) := by
  have hi := freachable_inv h
  constructor
  · intro hcfg hc hst hts hgt
    have hce : checkEntry cfg now c = none := by
      simp [checkEntry, hst, hcfg, hts, ClientStatus.isConnected, hgt]
    constructor
    · rw [checkClients_clients, mapGet_filterMapVal _ hi.clientsNodup, hc]
      simp [hce]
    · have heff : checkEntryEffs cfg now p c =
          [Eff.autoRemovedStaleClient (now - ts)] := by
        simp [checkEntryEffs, hst, hcfg, hts, ClientStatus.isConnected, hgt]
      refine mem_checkClients_effs
        (mem_sweepEffs_of_mem (mapGet_eq_some_mem hc) ?_)
      rw [show ((p, c) : Nat × ClientState).2 = c from rfl]
      rw [show ((p, c) : Nat × ClientState).1 = p from rfl]
      rw [heff]
      simp
  · intro hcfg hc hst
    have hce : checkEntry cfg now c = some c := by
      simp [checkEntry, hst, hcfg, ClientStatus.isConnected]
    rw [checkClients_clients, mapGet_filterMapVal _ hi.clientsNodup, hc]
    simp [hce]

/-- Configuration with staleClientTimeout 10000. -/
def cfgT : PortManagerOptions := ⟨10000, 5000, some 10000⟩

def tConnState : PortManagerState :=
  applyAction cfgT initState (Action.connect 0 1)

/-- Client of tConnState gone stale at the t = 20000 sweep. -/
def tStaleState : PortManagerState :=
  applyAction cfgT tConnState (Action.tick 20000)

theorem frTStale : FReachable cfgT tStaleState :=
  FReachable.step (Action.tick 20000)
    (FReachable.step (Action.connect 0 1) FReachable.init (by decide)) trivial

theorem c5_auto_eviction_witness :
    mapGet (checkClients cfgT 50000 tStaleState).1.clients 1 = none ∧
    Eff.autoRemovedStaleClient (50000 - 20000) ∈
      (checkClients cfgT 50000 tStaleState).2 :=
  (c5_auto_eviction cfgT frTStale 50000 1 20000 10000 wStaleClient).1
    rfl (by decide) rfl rfl (by decide)

end SWU
